import Mathlib

set_option maxRecDepth 8000

/-!
Verification of the salted-graph workflow demo.

The source program computes a recursive, Merkle-style "salted version"
(`get_salted_version`) for every node of a task dependency graph: the SHA-256
hex digest of the concatenation of the dependency digests followed by a
comma-joined identity string (class name, code version and the significant
parameters sorted by name).  A target resolver (`salted_target`) embeds a
six-character prefix of the digest into a path template.

This file embeds the program shallowly: SHA-256 is implemented over `Nat`
byte lists (all arithmetic taken modulo 2 ^ 32), tasks are finite trees, and
every definition is executable so that concrete digests can be checked by
`decide`.
-/

/-! ## SHA-256 over byte lists -/

def M32 : Nat := 4294967296

def rotr32 (n x : Nat) : Nat := (Nat.lor (x >>> n) (x <<< (32 - n))) % M32

def not32 (x : Nat) : Nat := Nat.xor x (M32 - 1)

def bigSigma0 (x : Nat) : Nat :=
  Nat.xor (Nat.xor (rotr32 2 x) (rotr32 13 x)) (rotr32 22 x)

def bigSigma1 (x : Nat) : Nat :=
  Nat.xor (Nat.xor (rotr32 6 x) (rotr32 11 x)) (rotr32 25 x)

def smallSigma0 (x : Nat) : Nat :=
  Nat.xor (Nat.xor (rotr32 7 x) (rotr32 18 x)) (x >>> 3)

def smallSigma1 (x : Nat) : Nat :=
  Nat.xor (Nat.xor (rotr32 17 x) (rotr32 19 x)) (x >>> 10)

def chooseB (x y z : Nat) : Nat := Nat.xor (Nat.land x y) (Nat.land (not32 x) z)

def majorB (x y z : Nat) : Nat :=
  Nat.xor (Nat.xor (Nat.land x y) (Nat.land x z)) (Nat.land y z)

def sha256K : List Nat :=
  [1116352408, 1899447441, 3049323471, 3921009573, 961987163,
   1508970993, 2453635748, 2870763221, 3624381080, 310598401,
   607225278, 1426881987, 1925078388, 2162078206, 2614888103,
   3248222580, 3835390401, 4022224774, 264347078, 604807628,
   770255983, 1249150122, 1555081692, 1996064986, 2554220882,
   2821834349, 2952996808, 3210313671, 3336571891, 3584528711,
   113926993, 338241895, 666307205, 773529912, 1294757372,
   1396182291, 1695183700, 1986661051, 2177026350, 2456956037,
   2730485921, 2820302411, 3259730800, 3345764771, 3516065817,
   3600352804, 4094571909, 275423344, 430227734, 506948616,
   659060556, 883997877, 958139571, 1322822218, 1537002063,
   1747873779, 1955562222, 2024104815, 2227730452, 2361852424,
   2428436474, 2756734187, 3204031479, 3329325298]

def sha256H0 : List Nat :=
  [1779033703, 3144134277, 1013904242, 2773480762, 1359893119,
   2600822924, 528734635, 1541459225]

def scheduleAux : Nat → List Nat → List Nat
  | 0, acc => acc.reverse
  | n + 1, acc =>
      scheduleAux n
        (((smallSigma1 (acc.getD 1 0) + acc.getD 6 0 +
           smallSigma0 (acc.getD 14 0) + acc.getD 15 0) % M32) :: acc)

def schedule (block : List Nat) : List Nat := scheduleAux 48 block.reverse

def roundStep (st : List Nat) (kw : Nat × Nat) : List Nat :=
  match st with
  | [a, b, c, d, e, f, g, h] =>
      let t1 := (h + bigSigma1 e + chooseB e f g + kw.1 + kw.2) % M32
      let t2 := (bigSigma0 a + majorB a b c) % M32
      [(t1 + t2) % M32, a, b, c, (d + t1) % M32, e, f, g]
  | other => other

def compress (hs : List Nat) (block : List Nat) : List Nat :=
  let st := (sha256K.zip (schedule block)).foldl roundStep hs
  (hs.zip st).map (fun p => (p.1 + p.2) % M32)

def toWords : List Nat → List Nat
  | b0 :: b1 :: b2 :: b3 :: rest =>
      (((b0 * 256 + b1) * 256 + b2) * 256 + b3) :: toWords rest
  | _ => []

def chunk16 : List Nat → List (List Nat)
  | w0 :: w1 :: w2 :: w3 :: w4 :: w5 :: w6 :: w7 ::
    w8 :: w9 :: w10 :: w11 :: w12 :: w13 :: w14 :: w15 :: rest =>
      [w0, w1, w2, w3, w4, w5, w6, w7, w8, w9, w10, w11, w12, w13, w14, w15]
        :: chunk16 rest
  | _ => []

def lenBytes8 (n : Nat) : List Nat :=
  [(n >>> 56) % 256, (n >>> 48) % 256, (n >>> 40) % 256, (n >>> 32) % 256,
   (n >>> 24) % 256, (n >>> 16) % 256, (n >>> 8) % 256, n % 256]

def padBytes (msg : List Nat) : List Nat :=
  msg ++ 128 :: List.replicate ((64 - (msg.length + 9) % 64) % 64) 0 ++
    lenBytes8 (8 * msg.length)

def sha256Words (msg : List Nat) : List Nat :=
  (chunk16 (toWords (padBytes msg))).foldl compress sha256H0

def hexAlphabet : List Char := (r"0123456789abcdef").data

def hexDigitChar (n : Nat) : Char := hexAlphabet.getD n '0'

def natToHex : Nat → Nat → List Char
  | 0, _ => []
  | k + 1, v => natToHex k (v / 16) ++ [hexDigitChar (v % 16)]

def hexOfWords (ws : List Nat) : List Char :=
  ws.foldr (fun w acc => natToHex 8 w ++ acc) []

def sha256Hex (msg : List Nat) : String := String.mk (hexOfWords (sha256Words msg))

/-- UTF-8 encoding of a single character, as in Python's `str.encode()`. -/
def utf8Char (c : Char) : List Nat :=
  let n := c.toNat
  if n < 128 then [n]
  else if n < 2048 then [192 + n / 64, 128 + n % 64]
  else if n < 65536 then [224 + n / 4096, 128 + n / 64 % 64, 128 + n % 64]
  else [240 + n / 262144, 128 + n / 4096 % 64, 128 + n / 64 % 64, 128 + n % 64]

def stringToBytes (s : String) : List Nat :=
  s.data.foldr (fun c acc => utf8Char c ++ acc) []

/-- Standard test vector: the SHA-256 digest of the empty message. -/
theorem sha256_vector_empty :
    sha256Hex (stringToBytes (r"")) =
      r"e3b0c44298fc1c149afbf4c8996fb92427ae41e4649b934ca495991b7852b855" := by
  decide

/-- Standard test vector: the SHA-256 digest of the ASCII string abc. -/
theorem sha256_vector_abc :
    sha256Hex (stringToBytes (r"abc")) =
      r"ba7816bf8f01cfea414140de5dae2223b00361a396177a9cb410ff61f20015ad" := by
  decide

/-! ## A small String toolkit (Strings viewed through their character lists) -/

theorem strData_append (a b : String) : (a ++ b).data = a.data ++ b.data := rfl

theorem strOfData (a b : String) (h : a.data = b.data) : a = b := by
  cases a
  cases b
  exact congrArg String.mk h

theorem strLength_data (a : String) : a.length = a.data.length := rfl

theorem strAppend_assoc (a b c : String) : a ++ b ++ c = a ++ (b ++ c) := by
  apply strOfData
  simp [strData_append, List.append_assoc]

theorem strAppend_empty (a : String) : a ++ (r"") = a := by
  apply strOfData
  simp [strData_append]

theorem strLength_append (a b : String) : (a ++ b).length = a.length + b.length := by
  show (a ++ b).data.length = a.data.length + b.data.length
  rw [strData_append, List.length_append]

/-- Left cancellation for string append. -/
theorem strAppend_cancel_left {a x y : String} (h : a ++ x = a ++ y) : x = y := by
  apply strOfData
  have hd := congrArg String.data h
  simp only [strData_append] at hd
  exact List.append_cancel_left hd

/-- Right cancellation for string append. -/
theorem strAppend_cancel_right {x y a : String} (h : x ++ a = y ++ a) : x = y := by
  apply strOfData
  have hd := congrArg String.data h
  simp only [strData_append] at hd
  exact List.append_cancel_right hd

/-- Two equal concatenations whose first pieces have the same length have equal
pieces. -/
theorem strAppend_inj {x y u v : String} (h : x ++ u = y ++ v)
    (hl : x.length = y.length) : x = y ∧ u = v := by
  have hd := congrArg String.data h
  simp only [strData_append] at hd
  have hlen : x.data.length = y.data.length := hl
  rcases List.append_inj hd hlen with ⟨h1, h2⟩
  exact ⟨strOfData _ _ h1, strOfData _ _ h2⟩

/-- Concatenation of a list of strings. -/
def strConcat : List String → String
  | [] => r""
  | s :: rest => s ++ strConcat rest

theorem strConcat_length_of_all64 :
    ∀ l : List String, (∀ x ∈ l, x.length = 64) →
      (strConcat l).length = 64 * l.length := by
  intro l
  induction l with
  | nil => intro _; rfl
  | cons s rest ih =>
      intro h
      have hs : s.length = 64 := h s (by simp)
      have hr := ih (fun x hx => h x (by simp [hx]))
      simp [strConcat, strLength_append, hs, hr, List.length_cons, Nat.mul_add,
        Nat.mul_one, Nat.add_comm]

/-- A concatenation of strings of a fixed common length 64 determines the list. -/
theorem strConcat_inj_of_all64 :
    ∀ l1 l2 : List String, (∀ x ∈ l1, x.length = 64) → (∀ x ∈ l2, x.length = 64) →
      strConcat l1 = strConcat l2 → l1 = l2 := by
  intro l1
  induction l1 with
  | nil =>
      intro l2 _ h2 h
      cases l2 with
      | nil => rfl
      | cons y ys =>
          exfalso
          have hlen := congrArg String.length h
          have hy : y.length = 64 := h2 y (by simp)
          simp [strConcat, strLength_append, hy] at hlen
          omega
  | cons x xs ih =>
      intro l2 h1 h2 h
      cases l2 with
      | nil =>
          exfalso
          have hlen := congrArg String.length h
          have hx : x.length = 64 := h1 x (by simp)
          simp [strConcat, strLength_append, hx] at hlen
      | cons y ys =>
          have hx : x.length = 64 := h1 x (by simp)
          have hy : y.length = 64 := h2 y (by simp)
          have h' : x ++ strConcat xs = y ++ strConcat ys := h
          rcases strAppend_inj h' (by rw [hx, hy]) with ⟨hxy, hrest⟩
          have := ih ys (fun z hz => h1 z (by simp [hz]))
            (fun z hz => h2 z (by simp [hz])) hrest
          rw [hxy, this]

/-! ## Lexicographic order on strings (Python sort order on parameter names
and dictionary keys, compared by Unicode code point) -/

def charListLe : List Char → List Char → Bool
  | _ :: _, [] => false
  | [], _ => true
  | c1 :: rest1, c2 :: rest2 =>
      if c1.toNat < c2.toNat then true
      else if c2.toNat < c1.toNat then false
      else charListLe rest1 rest2

def strLe (a b : String) : Bool := charListLe a.data b.data

theorem charToNat_inj {a b : Char} (h : a.toNat = b.toNat) : a = b := by
  rcases a with ⟨av, ha⟩
  rcases b with ⟨bv, hb⟩
  have : av = bv := by
    have h' : av.toNat = bv.toNat := h
    rcases av with ⟨⟨avn, hav⟩⟩
    rcases bv with ⟨⟨bvn, hbv⟩⟩
    simp [UInt32.toNat] at h'
    simp [h']
  simp [this]

theorem charListLe_total : ∀ a b : List Char, charListLe a b = true ∨ charListLe b a = true := by
  intro a
  induction a with
  | nil => intro b; left; rfl
  | cons x xs ih =>
      intro b
      cases b with
      | nil => right; rfl
      | cons y ys =>
          by_cases h1 : x.toNat < y.toNat
          · left; simp [charListLe, h1]
          · by_cases h2 : y.toNat < x.toNat
            · right; simp [charListLe, h1, h2]
            · rcases ih ys with h | h
              · left; simp [charListLe, h1, h2, h]
              · right; simp [charListLe, h1, h2, h]

theorem charListLe_antisymm :
    ∀ a b : List Char, charListLe a b = true → charListLe b a = true → a = b := by
  intro a
  induction a with
  | nil =>
      intro b _ hba
      cases b with
      | nil => rfl
      | cons y ys => simp [charListLe] at hba
  | cons x xs ih =>
      intro b hab hba
      cases b with
      | nil => simp [charListLe] at hab
      | cons y ys =>
          by_cases h1 : x.toNat < y.toNat
          · have h1' : ¬ y.toNat < x.toNat := by omega
            simp [charListLe, h1, h1'] at hba
          · by_cases h2 : y.toNat < x.toNat
            · simp [charListLe, h1, h2] at hab
            · have hxy : x = y := charToNat_inj (by omega)
              simp [charListLe, h1, h2] at hab hba
              rw [hxy, ih ys hab hba]

theorem charListLe_trans :
    ∀ a b c : List Char, charListLe a b = true → charListLe b c = true →
      charListLe a c = true := by
  intro a
  induction a with
  | nil => intro b c _ _; rfl
  | cons x xs ih =>
      intro b c hab hbc
      cases b with
      | nil => simp [charListLe] at hab
      | cons y ys =>
          cases c with
          | nil => simp [charListLe] at hbc
          | cons z zs =>
              by_cases hxy1 : x.toNat < y.toNat
              · by_cases hyz1 : y.toNat < z.toNat
                · have : x.toNat < z.toNat := by omega
                  simp [charListLe, this]
                · by_cases hyz2 : z.toNat < y.toNat
                  · exfalso; simp [charListLe, hyz1, hyz2] at hbc
                  · have : x.toNat < z.toNat := by omega
                    simp [charListLe, this]
              · by_cases hxy2 : y.toNat < x.toNat
                · exfalso; simp [charListLe, hxy1, hxy2] at hab
                · by_cases hyz1 : y.toNat < z.toNat
                  · have : x.toNat < z.toNat := by omega
                    simp [charListLe, this]
                  · by_cases hyz2 : z.toNat < y.toNat
                    · exfalso; simp [charListLe, hyz1, hyz2] at hbc
                    · have h1 : ¬ x.toNat < z.toNat := by omega
                      have h2 : ¬ z.toNat < x.toNat := by omega
                      simp [charListLe, hxy1, hxy2] at hab
                      simp [charListLe, hyz1, hyz2] at hbc
                      simp [charListLe, h1, h2, ih ys zs hab hbc]

theorem strLe_total (a b : String) : strLe a b = true ∨ strLe b a = true :=
  charListLe_total a.data b.data

theorem strLe_antisymm {a b : String} (h1 : strLe a b = true)
    (h2 : strLe b a = true) : a = b :=
  strOfData _ _ (charListLe_antisymm _ _ h1 h2)

theorem strLe_trans {a b c : String} (h1 : strLe a b = true)
    (h2 : strLe b c = true) : strLe a c = true :=
  charListLe_trans _ _ _ h1 h2

/-! ## Insertion sort of key/value pairs by key (Python `sorted` on parameter
name tuples; the deterministic order the spec imposes on keyed dependency
collections) -/

def insertKeyed {α : Type} (p : String × α) : List (String × α) → List (String × α)
  | [] => [p]
  | q :: qs => if strLe p.1 q.1 then p :: q :: qs else q :: insertKeyed p qs

def sortKeyed {α : Type} : List (String × α) → List (String × α)
  | [] => []
  | p :: ps => insertKeyed p (sortKeyed ps)

theorem insertKeyed_perm {α : Type} (p : String × α) :
    ∀ l : List (String × α), (insertKeyed p l).Perm (p :: l) := by
  intro l
  induction l with
  | nil => simp [insertKeyed]
  | cons q qs ih =>
      by_cases h : strLe p.1 q.1
      · simp [insertKeyed, h]
      · simp only [insertKeyed, h, if_false]
        exact (ih.cons q).trans (List.Perm.swap p q qs)

theorem sortKeyed_perm {α : Type} :
    ∀ l : List (String × α), (sortKeyed l).Perm l := by
  intro l
  induction l with
  | nil => simp [sortKeyed]
  | cons p ps ih =>
      exact (insertKeyed_perm p (sortKeyed ps)).trans (ih.cons p)

def keyLe {α : Type} (a b : String × α) : Prop := strLe a.1 b.1 = true

theorem insertKeyed_pairwise {α : Type} (p : String × α) :
    ∀ l : List (String × α), l.Pairwise keyLe →
      (insertKeyed p l).Pairwise keyLe := by
  intro l
  induction l with
  | nil => intro _; simp [insertKeyed, List.Pairwise]
  | cons q qs ih =>
      intro hp
      rcases List.pairwise_cons.mp hp with ⟨hq, hqs⟩
      by_cases h : strLe p.1 q.1
      · simp only [insertKeyed, h, if_true]
        refine List.pairwise_cons.mpr ⟨?_, hp⟩
        intro z hz
        rcases List.mem_cons.mp hz with hz | hz
        · rw [hz]; exact h
        · exact strLe_trans h (hq z hz)
      · simp only [insertKeyed, h, if_false]
        refine List.pairwise_cons.mpr ⟨?_, ih hqs⟩
        intro z hz
        have hz' : z ∈ p :: qs := (insertKeyed_perm p qs).mem_iff.mp hz
        rcases List.mem_cons.mp hz' with hz' | hz'
        · rw [hz']
          rcases strLe_total q.1 p.1 with hqp | hpq
          · exact hqp
          · exact absurd hpq h
        · exact hq z hz'

theorem sortKeyed_pairwise {α : Type} :
    ∀ l : List (String × α), (sortKeyed l).Pairwise keyLe := by
  intro l
  induction l with
  | nil => simp [sortKeyed, List.Pairwise]
  | cons p ps ih => exact insertKeyed_pairwise p (sortKeyed ps) ih

/-- Two sorted key/value lists that are permutations of each other and whose
keys are distinct are equal. -/
theorem sorted_perm_eq_of_nodup_keys {α : Type} :
    ∀ l1 l2 : List (String × α), l1.Perm l2 → l1.Pairwise keyLe →
      l2.Pairwise keyLe → (l1.map Prod.fst).Nodup → l1 = l2 := by
  intro l1
  induction l1 with
  | nil =>
      intro l2 hperm _ _ _
      exact (hperm.nil_eq).symm ▸ rfl
  | cons x xs ih =>
      intro l2 hperm hp1 hp2 hnd
      cases l2 with
      | nil => exact absurd hperm.symm.nil_eq (by simp)
      | cons y ys =>
          rcases List.pairwise_cons.mp hp1 with ⟨hx, hxs⟩
          rcases List.pairwise_cons.mp hp2 with ⟨hy, hys⟩
          have hnd2 : x.1 ∉ xs.map Prod.fst ∧ (xs.map Prod.fst).Nodup := by
            rw [List.map_cons] at hnd
            exact List.nodup_cons.mp hnd
          by_cases hxy : x = y
          · subst hxy
            have htail : xs.Perm ys := hperm.cons_inv
            rw [ih ys htail hxs hys hnd2.2]
          · exfalso
            have hxmem : x ∈ y :: ys := hperm.mem_iff.mp (by simp)
            have hxys : x ∈ ys := by
              rcases List.mem_cons.mp hxmem with h | h
              · exact absurd h hxy
              · exact h
            have hymem : y ∈ x :: xs := hperm.mem_iff.mpr (by simp)
            have hyxs : y ∈ xs := by
              rcases List.mem_cons.mp hymem with h | h
              · exact absurd h.symm hxy
              · exact h
            have h1 : strLe x.1 y.1 = true := hx y hyxs
            have h2 : strLe y.1 x.1 = true := hy x hxys
            have hkey : x.1 = y.1 := strLe_antisymm h1 h2
            have : x.1 ∈ xs.map Prod.fst := by
              rw [hkey]
              exact List.mem_map.mpr ⟨y, hyxs, rfl⟩
            exact hnd2.1 this

/-! ## Task descriptors

A task is a finite tree: class name (`kind`), `__version__` string, the
parameter assignment (name, canonical `repr` rendering of the value, and the
`significant` flag), and the already-flattened ordered list of direct
dependencies.  The graph of the source program is finite and acyclic, so a
tree faithfully represents each task's dependency closure. -/

namespace Salted

mutual
inductive Task : Type where
  | mk : String → String → List (String × String × Bool) → TaskList → Task
deriving DecidableEq
inductive TaskList : Type where
  | nil : TaskList
  | cons : Task → TaskList → TaskList
deriving DecidableEq
end

def taskKind : Task → String
  | Task.mk k _ _ _ => k

def taskVersion : Task → String
  | Task.mk _ v _ _ => v

def taskParams : Task → List (String × String × Bool)
  | Task.mk _ _ ps _ => ps

def taskDeps : Task → TaskList
  | Task.mk _ _ _ ds => ds

def TaskList.toList : TaskList → List Task
  | TaskList.nil => []
  | TaskList.cons t ts => t :: ts.toList

def TaskList.append : TaskList → TaskList → TaskList
  | TaskList.nil, ys => ys
  | TaskList.cons x xs, ys => TaskList.cons x (xs.append ys)

/-- Python `','.join`. -/
def joinComma : List String → String
  | [] => r""
  | [s] => s
  | s :: rest => s ++ (r",") ++ joinComma rest

/-- The `name=value` tokens of the significant parameters, sorted by parameter
name ascending, exactly as the source's list comprehension produces them: it
walks `sorted(task.get_params())`, keeps the significant ones, and renders
each as the name, an equals sign, and the `repr` of the value. -/
def sigTokens (ps : List (String × String × Bool)) : List String :=
  (sortKeyed ps).filterMap
    (fun p => if p.2.2 then Option.some (p.1 ++ (r"=") ++ p.2.1) else Option.none)

/-- The comma-joined identity of a task: class name, `__version__`, and the
significant `name=value` tokens. -/
def identityString (k v : String) (ps : List (String × String × Bool)) : String :=
  joinComma (k :: v :: sigTokens ps)

mutual
/-- The function `get_salted_version` from the source: the SHA-256 hex digest of the
concatenated dependency digests followed by the task's identity string. -/
def get_salted_version : Task → String
  | Task.mk k v ps ds =>
      sha256Hex (stringToBytes (saltMsg ds ++ identityString k v ps))
/-- The running message accumulated by the `for req in flatten(task.requires())`
loop: the concatenation of the dependency digests in order. -/
def saltMsg : TaskList → String
  | TaskList.nil => r""
  | TaskList.cons t ts => get_salted_version t ++ saltMsg ts
end

/-- The full pre-hash message of a task. -/
def messageOf : Task → String
  | Task.mk k v ps ds => saltMsg ds ++ identityString k v ps

theorem get_salted_version_eq_hash_message (t : Task) :
    get_salted_version t = sha256Hex (stringToBytes (messageOf t)) := by
  cases t
  rfl

/-- The ordered dependency fingerprints of a task list. -/
def depDigests (ds : TaskList) : List String := ds.toList.map get_salted_version

theorem saltMsg_eq_concat : ∀ ds : TaskList, saltMsg ds = strConcat (depDigests ds)
  | TaskList.nil => rfl
  | TaskList.cons t ts => by
      simp only [saltMsg, depDigests, TaskList.toList, List.map_cons, strConcat]
      rw [saltMsg_eq_concat ts]
      rfl

theorem saltMsg_append : ∀ xs ys : TaskList,
    saltMsg (xs.append ys) = saltMsg xs ++ saltMsg ys
  | TaskList.nil, ys => by
      simp only [TaskList.append, saltMsg]
      exact (strOfData _ _ rfl)
  | TaskList.cons x xs, ys => by
      simp only [TaskList.append, saltMsg]
      rw [saltMsg_append xs ys, strAppend_assoc]

/-! ## The dependency flattener

`task.requires()` may return nothing, a single task, a nested sequence, or a
keyed collection.  `flattenDS` normalizes it to one ordered list of direct
dependencies: element order is preserved for sequences and nested structures
are flattened depth-first, left to right.

For a keyed collection the source calls `luigi.task.flatten`, which walks the
dictionary in incidental insertion order; that code is not part of this
repository.  Modelled from the spec: the Dependency Flattener MUST impose a
deterministic order on a keyed (unordered) collection, sorting by key
lexicographically (spec sections 4.1 and 9), which is what the `keyed` case
below does. -/

mutual
inductive DepStruct : Type where
  | empty : DepStruct
  | single : Task → DepStruct
  | seq : DepList → DepStruct
  | keyed : KeyedDeps → DepStruct
deriving DecidableEq
inductive DepList : Type where
  | nil : DepList
  | cons : DepStruct → DepList → DepList
deriving DecidableEq
inductive KeyedDeps : Type where
  | nil : KeyedDeps
  | cons : String → DepStruct → KeyedDeps → KeyedDeps
deriving DecidableEq
end

def concatTL : List TaskList → TaskList
  | [] => TaskList.nil
  | ts :: rest => ts.append (concatTL rest)

mutual
def flattenDS : DepStruct → TaskList
  | DepStruct.empty => TaskList.nil
  | DepStruct.single t => TaskList.cons t TaskList.nil
  | DepStruct.seq ds => flattenDL ds
  | DepStruct.keyed ks => concatTL ((sortKeyed (flattenKD ks)).map Prod.snd)
def flattenDL : DepList → TaskList
  | DepList.nil => TaskList.nil
  | DepList.cons d rest => (flattenDS d).append (flattenDL rest)
def flattenKD : KeyedDeps → List (String × TaskList)
  | KeyedDeps.nil => []
  | KeyedDeps.cons k d rest => (k, flattenDS d) :: flattenKD rest
end

/-- The key/value pairs of a keyed dependency collection, in declaration
order. -/
def keyedToList : KeyedDeps → List (String × DepStruct)
  | KeyedDeps.nil => []
  | KeyedDeps.cons k d rest => (k, d) :: keyedToList rest

theorem flattenKD_eq_map :
    ∀ ks : KeyedDeps,
      flattenKD ks = (keyedToList ks).map (fun p => (p.1, flattenDS p.2))
  | KeyedDeps.nil => rfl
  | KeyedDeps.cons k d rest => by
      simp only [flattenKD, keyedToList, List.map_cons]
      rw [flattenKD_eq_map rest]

/-- Build a task from its raw declared dependency structure, flattening it as
`get_salted_version` does via `flatten(task.requires())`. -/
def mkTask (k v : String) (ps : List (String × String × Bool))
    (d : DepStruct) : Task :=
  Task.mk k v ps (flattenDS d)

/-! ## The target resolver

`salted_target(task, file_pattern, format=None, **kwargs)` returns
`LocalTarget(file_pattern.format(salt=get_salted_version(task)[:6], self=task,
**kwargs), format=format)`.  A path template is modelled as a list of literal
and placeholder pieces; placeholder values (including attribute references
such as `self.date_interval`) come from the caller-supplied bindings, and the
resolver itself binds `salt` to the first six characters of the digest.  The
target is a pure value holding the resolved path; nothing is created on any
storage medium. -/

/-- Python string slicing `s[:n]`: the first `n` characters. -/
def strTake (n : Nat) (s : String) : String := String.mk (s.data.take n)

def strDrop (n : Nat) (s : String) : String := String.mk (s.data.drop n)

structure LocalTarget : Type where
  path : String
  fmt : Option String
deriving DecidableEq

inductive TemplatePiece : Type where
  | lit : String → TemplatePiece
  | hole : String → TemplatePiece
deriving DecidableEq

def lookupKw (n : String) : List (String × String) → Option String
  | [] => Option.none
  | p :: ps => if p.1 = n then Option.some p.2 else lookupKw n ps

/-- Python `file_pattern.format(...)`: literals are copied, placeholders are resolved
from the bindings; an unbound placeholder is a `KeyError`, modelled as
`none`. -/
def formatTemplate (bs : List (String × String)) : List TemplatePiece → Option String
  | [] => Option.some (r"")
  | TemplatePiece.lit s :: rest =>
      match formatTemplate bs rest with
      | Option.some tail => Option.some (s ++ tail)
      | Option.none => Option.none
  | TemplatePiece.hole n :: rest =>
      match lookupKw n bs, formatTemplate bs rest with
      | Option.some v, Option.some tail => Option.some (v ++ tail)
      | _, _ => Option.none

/-- The function `salted_target` from the source. -/
def salted_target (task : Task) (file_pattern : List TemplatePiece)
    (fmt : Option String) (kwargs : List (String × String)) : Option LocalTarget :=
  (formatTemplate ((r"salt", strTake 6 (get_salted_version task)) :: kwargs)
      file_pattern).map (fun p => LocalTarget.mk p fmt)

/-! ## Shape of the digest: always 64 lowercase hexadecimal characters -/

theorem roundStep_length (st : List Nat) (kw : Nat × Nat) :
    (roundStep st kw).length = st.length := by
  unfold roundStep
  split
  · simp
  · rfl

theorem foldl_roundStep_length :
    ∀ (l : List (Nat × Nat)) (st : List Nat),
      (l.foldl roundStep st).length = st.length := by
  intro l
  induction l with
  | nil => intro st; rfl
  | cons kw rest ih =>
      intro st
      simp only [List.foldl_cons]
      rw [ih, roundStep_length]

theorem compress_length (hs : List Nat) (block : List Nat) (h : hs.length = 8) :
    (compress hs block).length = 8 := by
  simp only [compress, List.length_map, List.length_zip, foldl_roundStep_length, h]
  omega

theorem foldl_compress_length :
    ∀ (blocks : List (List Nat)) (hs : List Nat), hs.length = 8 →
      (blocks.foldl compress hs).length = 8 := by
  intro blocks
  induction blocks with
  | nil => intro hs h; exact h
  | cons b rest ih =>
      intro hs h
      simp only [List.foldl_cons]
      exact ih (compress hs b) (compress_length hs b h)

theorem natToHex_length : ∀ (k v : Nat), (natToHex k v).length = k := by
  intro k
  induction k with
  | zero => intro v; rfl
  | succ n ih =>
      intro v
      simp [natToHex, ih]

theorem hexOfWords_length :
    ∀ ws : List Nat, (hexOfWords ws).length = 8 * ws.length := by
  intro ws
  induction ws with
  | nil => rfl
  | cons w rest ih =>
      simp only [hexOfWords, List.foldr_cons] at ih ⊢
      simp [List.length_append, natToHex_length, ih, List.length_cons]
      omega

theorem sha256Hex_length (msg : List Nat) : (sha256Hex msg).length = 64 := by
  show (hexOfWords (sha256Words msg)).length = 64
  rw [hexOfWords_length]
  rw [sha256Words, foldl_compress_length _ sha256H0 (by rfl)]

theorem gsv_length (t : Salted.Task) : (Salted.get_salted_version t).length = 64 := by
  cases t
  exact sha256Hex_length _

theorem hexDigitChar_mem (n : Nat) : hexDigitChar n ∈ hexAlphabet := by
  show hexAlphabet.getD n (Char.ofNat 48) ∈ hexAlphabet
  rw [List.getD_eq_getElem?_getD]
  cases h : hexAlphabet[n]? with
  | none => decide
  | some c =>
      simp only [Option.getD_some]
      exact List.getElem?_mem h

theorem natToHex_mem_hex :
    ∀ (k v : Nat), ∀ x ∈ natToHex k v, x ∈ hexAlphabet := by
  intro k
  induction k with
  | zero => intro v x hx; simp [natToHex] at hx
  | succ n ih =>
      intro v x hx
      simp only [natToHex, List.mem_append, List.mem_singleton] at hx
      rcases hx with hx | hx
      · exact ih (v / 16) x hx
      · rw [hx]; exact hexDigitChar_mem _

theorem hexOfWords_mem_hex :
    ∀ ws : List Nat, ∀ x ∈ hexOfWords ws, x ∈ hexAlphabet := by
  intro ws
  induction ws with
  | nil => intro x hx; simp [hexOfWords] at hx
  | cons w rest ih =>
      intro x hx
      simp only [hexOfWords, List.foldr_cons, List.mem_append] at hx ih
      rcases hx with hx | hx
      · exact natToHex_mem_hex 8 w x hx
      · exact ih x hx

theorem gsv_mem_hex (t : Salted.Task) :
    ∀ ch ∈ (Salted.get_salted_version t).data, ch ∈ hexAlphabet := by
  cases t
  exact hexOfWords_mem_hex _

/-! ## Changing one task inside a graph

`substTask c c' t` replaces every occurrence of the task `c` inside the tree
`t` by `c'`; `containsTask t c` decides whether `t` is `c` or transitively
depends on it.  `allMessages t` collects the pre-hash messages of every task
in the dependency closure of `t`. -/

mutual
def substTask (c c' : Task) : Task → Task
  | Task.mk k v ps ds =>
      if Task.mk k v ps ds = c then c' else Task.mk k v ps (substTL c c' ds)
def substTL (c c' : Task) : TaskList → TaskList
  | TaskList.nil => TaskList.nil
  | TaskList.cons t ts => TaskList.cons (substTask c c' t) (substTL c c' ts)
end

mutual
def containsTask : Task → Task → Bool
  | Task.mk k v ps ds, c =>
      if Task.mk k v ps ds = c then true else containsTL ds c
def containsTL : TaskList → Task → Bool
  | TaskList.nil, _ => false
  | TaskList.cons t ts, c => containsTask t c || containsTL ts c
end

mutual
def allMessages : Task → List String
  | Task.mk k v ps ds => messageOf (Task.mk k v ps ds) :: allMessagesTL ds
def allMessagesTL : TaskList → List String
  | TaskList.nil => []
  | TaskList.cons t ts => allMessages t ++ allMessagesTL ts
end

mutual
theorem substTask_of_not_contains (c c' : Task) :
    ∀ t : Task, containsTask t c = false → substTask c c' t = t
  | Task.mk k v ps ds, h => by
      have hne : ¬ (Task.mk k v ps ds = c) := by
        intro he
        rw [containsTask, if_pos he] at h
        exact Bool.true_eq_false.mp h
      rw [containsTask, if_neg hne] at h
      rw [substTask, if_neg hne, substTL_of_not_contains c c' ds h]
theorem substTL_of_not_contains (c c' : Task) :
    ∀ ts : TaskList, containsTL ts c = false → substTL c c' ts = ts
  | TaskList.nil, _ => rfl
  | TaskList.cons t ts, h => by
      rw [containsTL, Bool.or_eq_false_iff] at h
      rw [substTL, substTask_of_not_contains c c' t h.1,
        substTL_of_not_contains c c' ts h.2]
end

theorem messageOf_mem_allMessages (t : Task) : messageOf t ∈ allMessages t := by
  cases t
  rw [allMessages]
  exact List.mem_cons_self _ _

theorem allMessages_head (k v : String) (ps : List (String × String × Bool))
    (ds : TaskList) :
    allMessages (Task.mk k v ps ds) =
      messageOf (Task.mk k v ps ds) :: allMessagesTL ds := by
  rw [allMessages]

/-- The pre-hash message of `t`, through the definitional hash equation. -/
theorem gsv_as_hash (t : Task) :
    get_salted_version t = sha256Hex (stringToBytes (messageOf t)) := by
  cases t
  rfl

theorem substTL_toList (c c' : Task) :
    ∀ ts : TaskList, (substTL c c' ts).toList = ts.toList.map (substTask c c')
  | TaskList.nil => rfl
  | TaskList.cons t ts => by
      rw [substTL, TaskList.toList, TaskList.toList, List.map_cons,
        substTL_toList c c' ts]

/-! ## Propagation of a version change through the digests -/

/-- The collision-freeness side condition: on the finitely many pre-hash
messages arising in a computation, equal digests come only from equal
messages.  For concrete graphs this is checked by evaluation. -/
def MsgInj (l1 l2 : List String) : Prop :=
  ∀ m1 ∈ l1, ∀ m2 ∈ l2,
    sha256Hex (stringToBytes m1) = sha256Hex (stringToBytes m2) → m1 = m2

theorem msgInj_mono {l1 l2 l1' l2' : List String}
    (h : MsgInj l1 l2) (s1 : ∀ x ∈ l1', x ∈ l1) (s2 : ∀ x ∈ l2', x ∈ l2) :
    MsgInj l1' l2' :=
  fun m1 h1 m2 h2 => h m1 (s1 m1 h1) m2 (s2 m2 h2)

theorem depDigests_cons (t : Task) (ts : TaskList) :
    depDigests (TaskList.cons t ts) = get_salted_version t :: depDigests ts := rfl

theorem depDigests_all64 (ds : TaskList) : ∀ x ∈ depDigests ds, x.length = 64 := by
  intro x hx
  rcases List.mem_map.mp hx with ⟨t, _, rfl⟩
  exact gsv_length t

theorem depDigests_length_subst (c c' : Task) (ds : TaskList) :
    (depDigests (substTL c c' ds)).length = (depDigests ds).length := by
  simp [depDigests, substTL_toList, List.length_map]

theorem joinComma_cons_cons (s x : String) (xs : List String) :
    joinComma (s :: x :: xs) = s ++ (r",") ++ joinComma (x :: xs) := rfl

def tailComma : List String → String
  | [] => r""
  | x :: xs => (r",") ++ joinComma (x :: xs)

theorem joinComma_cons (v : String) (toks : List String) :
    joinComma (v :: toks) = v ++ tailComma toks := by
  cases toks with
  | nil => exact (strAppend_empty v).symm
  | cons x xs => exact strAppend_assoc v (r",") (joinComma (x :: xs))

/-- Changing only the `__version__` string changes the pre-hash message. -/
theorem messageOf_bump_ne (k v v' : String) (ps : List (String × String × Bool))
    (ds : TaskList) (hv : v' ≠ v) :
    messageOf (Task.mk k v' ps ds) ≠ messageOf (Task.mk k v ps ds) := by
  intro h
  apply hv
  rw [messageOf, messageOf] at h
  have h1 := strAppend_cancel_left h
  rw [identityString, identityString, joinComma_cons_cons, joinComma_cons_cons] at h1
  have h2 := strAppend_cancel_left h1
  rw [joinComma_cons, joinComma_cons] at h2
  exact strAppend_cancel_right h2

mutual
/-- If a task `s` transitively depends on (or is) `c`, and the hash does not
collide on the messages involved, then replacing `c` by a task with a
different message changes the digest of `s`. -/
theorem gsv_subst_ne (c c' : Task) (hmsg : messageOf c' ≠ messageOf c) :
    ∀ s : Task, MsgInj (allMessages (substTask c c' s)) (allMessages s) →
      containsTask s c = true →
      get_salted_version (substTask c c' s) ≠ get_salted_version s
  | Task.mk k v ps ds, hinj, hc => by
      by_cases he : Task.mk k v ps ds = c
      · intro hd
        rw [substTask, if_pos he] at hd hinj
        have h2 : messageOf c' = messageOf (Task.mk k v ps ds) := by
          apply hinj _ (messageOf_mem_allMessages c') _ (messageOf_mem_allMessages _)
          rw [← gsv_as_hash, ← gsv_as_hash]
          exact hd
        rw [he] at h2
        exact hmsg h2
      · rw [containsTask, if_neg he] at hc
        rw [substTask, if_neg he] at hinj ⊢
        intro hd
        have hmeq : messageOf (Task.mk k v ps (substTL c c' ds)) =
            messageOf (Task.mk k v ps ds) := by
          apply hinj _ (messageOf_mem_allMessages _) _ (messageOf_mem_allMessages _)
          rw [← gsv_as_hash, ← gsv_as_hash]
          exact hd
        rw [messageOf, messageOf] at hmeq
        have hlen : (saltMsg (substTL c c' ds)).length = (saltMsg ds).length := by
          rw [saltMsg_eq_concat, saltMsg_eq_concat,
            strConcat_length_of_all64 _ (depDigests_all64 _),
            strConcat_length_of_all64 _ (depDigests_all64 _),
            depDigests_length_subst]
        have hsalt := (strAppend_inj hmeq hlen).1
        have hdd : depDigests (substTL c c' ds) = depDigests ds := by
          apply strConcat_inj_of_all64 _ _ (depDigests_all64 _) (depDigests_all64 _)
          rw [← saltMsg_eq_concat, ← saltMsg_eq_concat]
          exact hsalt
        have hinjTL : MsgInj (allMessagesTL (substTL c c' ds)) (allMessagesTL ds) := by
          apply msgInj_mono hinj
          · intro x hx
            rw [allMessages_head]
            exact List.mem_cons_of_mem _ hx
          · intro x hx
            rw [allMessages_head]
            exact List.mem_cons_of_mem _ hx
        exact depDigests_subst_ne c c' hmsg ds hinjTL hc hdd
/-- List version: if some member of `ts` contains `c`, the list of dependency
digests changes. -/
theorem depDigests_subst_ne (c c' : Task) (hmsg : messageOf c' ≠ messageOf c) :
    ∀ ts : TaskList, MsgInj (allMessagesTL (substTL c c' ts)) (allMessagesTL ts) →
      containsTL ts c = true →
      depDigests (substTL c c' ts) ≠ depDigests ts
  | TaskList.cons t rest, hinj, hc => by
      intro hdd
      rw [substTL] at hdd hinj
      rw [depDigests_cons, depDigests_cons] at hdd
      have hhead := (List.cons.injEq _ _ _ _).mp hdd
      rw [containsTL, Bool.or_eq_true] at hc
      rw [allMessagesTL] at hinj
      rcases hc with hct | hcr
      · have hinjT : MsgInj (allMessages (substTask c c' t)) (allMessages t) := by
          apply msgInj_mono hinj
          · intro x hx
            exact List.mem_append_left _ hx
          · intro x hx
            rw [allMessagesTL]
            exact List.mem_append_left _ hx
        exact gsv_subst_ne c c' hmsg t hinjT hct hhead.1
      · have hinjR : MsgInj (allMessagesTL (substTL c c' rest)) (allMessagesTL rest) := by
          apply msgInj_mono hinj
          · intro x hx
            exact List.mem_append_right _ hx
          · intro x hx
            rw [allMessagesTL]
            exact List.mem_append_right _ hx
        exact depDigests_subst_ne c c' hmsg rest hinjR hcr hhead.2
end

/-- The task `c` with its `__version__` replaced by `v'`. -/
def bumpVersion : Task → String → Task
  | Task.mk k _ ps ds, v' => Task.mk k v' ps ds

/-! ## The significant parameters as name/value pairs -/

/-- The significant parameters of a parameter assignment, sorted by name
ascending, as (name, rendered value) pairs. -/
def significantParams (ps : List (String × String × Bool)) : List (String × String) :=
  (sortKeyed ps).filterMap
    (fun p => if p.2.2 then Option.some (p.1, p.2.1) else Option.none)

theorem filterMapTokens :
    ∀ l : List (String × String × Bool),
      l.filterMap
          (fun p => if p.2.2 then Option.some (p.1 ++ (r"=") ++ p.2.1) else Option.none)
        = (l.filterMap
            (fun p => if p.2.2 then Option.some (p.1, p.2.1) else Option.none)).map
              (fun p => p.1 ++ (r"=") ++ p.2) := by
  intro l
  induction l with
  | nil => rfl
  | cons p rest ih =>
      by_cases h : p.2.2
      · simp [List.filterMap_cons, h, ih]
      · simp [List.filterMap_cons, h, ih]

theorem sigTokens_eq_map (ps : List (String × String × Bool)) :
    sigTokens ps = (significantParams ps).map (fun p => p.1 ++ (r"=") ++ p.2) := by
  rw [sigTokens, significantParams, filterMapTokens]

/-- Swapping two dependencies with distinct fingerprints changes the pre-hash
message. -/
theorem messageOf_swap_ne (k v : String) (ps : List (String × String × Bool))
    (A B : Task) (hAB : get_salted_version A ≠ get_salted_version B) :
    messageOf (Task.mk k v ps (TaskList.cons B (TaskList.cons A TaskList.nil))) ≠
      messageOf (Task.mk k v ps (TaskList.cons A (TaskList.cons B TaskList.nil))) := by
  intro h
  apply hAB
  rw [messageOf, messageOf] at h
  simp only [saltMsg] at h
  rw [strAppend_empty, strAppend_empty, strAppend_assoc, strAppend_assoc] at h
  exact ((strAppend_inj h (by rw [gsv_length, gsv_length])).1).symm

/-! ## The claims -/

/-- Claim C1: for every task built from a finite acyclic dependency structure,
`get_salted_version` equals the SHA-256 lowercase hex digest of the message
formed by concatenating the hex digests of the flattened direct dependencies
in order, followed by the comma-joined identity string: kind, codeVersion, and
one `name=value` token for each significant parameter sorted by parameter
name ascending. -/
theorem claim_C1 (k v : String) (ps : List (String × String × Bool)) (d : DepStruct) :
    get_salted_version (mkTask k v ps d) =
      sha256Hex (stringToBytes
        (strConcat ((flattenDS d).toList.map get_salted_version) ++
          joinComma (k :: v ::
            (significantParams ps).map (fun p => p.1 ++ (r"=") ++ p.2)))) := by
  rw [mkTask, get_salted_version, identityString, ← sigTokens_eq_map,
    saltMsg_eq_concat, depDigests]

/-- Claim C2: `get_salted_version` is deterministic and depends only on the
task structure: two task values with identical kind, codeVersion, significant
parameter names and values, and identical ordered dependency fingerprint
sequences receive identical digests. -/
theorem claim_C2 (t1 t2 : Task)
    (hk : taskKind t1 = taskKind t2)
    (hv : taskVersion t1 = taskVersion t2)
    (hp : significantParams (taskParams t1) = significantParams (taskParams t2))
    (hd : depDigests (taskDeps t1) = depDigests (taskDeps t2)) :
    get_salted_version t1 = get_salted_version t2 := by
  cases t1 with
  | mk k1 v1 ps1 ds1 =>
  cases t2 with
  | mk k2 v2 ps2 ds2 =>
  rw [taskKind, taskKind] at hk
  rw [taskVersion, taskVersion] at hv
  rw [taskParams, taskParams] at hp
  rw [taskDeps, taskDeps] at hd
  subst hk
  subst hv
  have hsalt : saltMsg ds1 = saltMsg ds2 := by
    rw [saltMsg_eq_concat, saltMsg_eq_concat, hd]
  have htoks : sigTokens ps1 = sigTokens ps2 := by
    rw [sigTokens_eq_map, sigTokens_eq_map, hp]
  rw [get_salted_version, get_salted_version, identityString, identityString,
    htoks, hsalt]

def c2a : Task :=
  Task.mk (r"SVCTask") (r"1.0")
    [((r"c"), (r"100.0"), true), ((r"gamma"), (r"1.0"), true),
     ((r"debug"), (r"True"), false)]
    TaskList.nil

def c2b : Task :=
  Task.mk (r"SVCTask") (r"1.0")
    [((r"gamma"), (r"1.0"), true), ((r"c"), (r"100.0"), true),
     ((r"note"), (r"other"), false)]
    TaskList.nil

/-- Witness for claim C2: two separately built task values that differ in
parameter order and in their insignificant parameters but agree on the
structure that matters receive identical digests. -/
theorem claim_C2_witness :
    (taskKind c2a = taskKind c2b ∧ taskVersion c2a = taskVersion c2b ∧
     significantParams (taskParams c2a) = significantParams (taskParams c2b) ∧
     depDigests (taskDeps c2a) = depDigests (taskDeps c2b)) ∧
    get_salted_version c2a = get_salted_version c2b :=
  ⟨⟨rfl, rfl, by decide, rfl⟩, claim_C2 c2a c2b rfl rfl (by decide) rfl⟩

/-- Claim C4: insignificant parameters do not influence the fingerprint: two
tasks agreeing on kind, codeVersion, significant parameters and dependencies
receive identical digests no matter how their insignificant parameters
differ. -/
theorem claim_C4 (k v : String) (ps1 ps2 : List (String × String × Bool))
    (ds : TaskList)
    (hp : significantParams ps1 = significantParams ps2) :
    get_salted_version (Task.mk k v ps1 ds) =
      get_salted_version (Task.mk k v ps2 ds) := by
  rw [get_salted_version, get_salted_version, identityString, identityString,
    sigTokens_eq_map, sigTokens_eq_map, hp]

def c4a : Task :=
  Task.mk (r"Streams") (r"1.0")
    [((r"date"), (r"datetime.date(2018, 3, 1)"), true)] TaskList.nil

def c4b : Task :=
  Task.mk (r"Streams") (r"1.0")
    [((r"date"), (r"datetime.date(2018, 3, 1)"), true),
     ((r"retries"), (r"5"), false)]
    TaskList.nil

/-- Witness for claim C4: adding an extra insignificant parameter with an
arbitrary value leaves the digest unchanged (the spec's example scenario). -/
theorem claim_C4_witness :
    significantParams
        [((r"date"), (r"datetime.date(2018, 3, 1)"), true)] =
      significantParams
        [((r"date"), (r"datetime.date(2018, 3, 1)"), true),
         ((r"retries"), (r"5"), false)] ∧
    get_salted_version c4a = get_salted_version c4b :=
  ⟨by decide,
   claim_C4 (r"Streams") (r"1.0") _ _ TaskList.nil (by decide)⟩

/-- Claim C8: a task whose declared dependency structure is empty flattens to
the empty sequence, and its digest is the SHA-256 lowercase hex digest of its
identity string alone (kind, codeVersion and the sorted significant
`name=value` tokens joined by commas), with no dependency contribution. -/
theorem claim_C8 (k v : String) (ps : List (String × String × Bool)) :
    flattenDS DepStruct.empty = TaskList.nil ∧
    get_salted_version (mkTask k v ps DepStruct.empty) =
      sha256Hex (stringToBytes (joinComma (k :: v :: sigTokens ps))) :=
  ⟨rfl, rfl⟩

/-- Claim C9: on every (structurally finite and acyclic) task tree the
recursive computation is total and returns a digest: a string of exactly 64
characters drawn from the lowercase hexadecimal alphabet.  The embedding is a
pure function: no input/output, randomness or mutable state exists in it, and
cycles are unrepresentable in the inductive task type, matching the
documented precondition that cyclic graphs are rejected upstream. -/
theorem claim_C9 (t : Task) :
    (get_salted_version t).length = 64 ∧
    (get_salted_version t).data.all (fun ch => hexAlphabet.contains ch) = true := by
  constructor
  · exact gsv_length t
  · apply List.all_eq_true.mpr
    intro ch hch
    exact List.elem_eq_true_of_mem (gsv_mem_hex t ch hch)

/-- Claim C3: changing the codeVersion of one task `c` changes the digest of
`c` and of every task that transitively depends on it (under the explicit
side condition that SHA-256 does not collide on the finitely many pre-hash
messages involved, checked by evaluation on concrete graphs), while every
task that neither is `c` nor transitively depends on it is left completely
unchanged, digest included. -/
theorem claim_C3 (c : Task) (v' : String) (s : Task)
    (hv : v' ≠ taskVersion c)
    (hinj : MsgInj (allMessages (substTask c (bumpVersion c v') s)) (allMessages s)) :
    (containsTask s c = true →
      get_salted_version (substTask c (bumpVersion c v') s) ≠ get_salted_version s)
    ∧ (containsTask s c = false → substTask c (bumpVersion c v') s = s) := by
  have hmsg : messageOf (bumpVersion c v') ≠ messageOf c := by
    cases c with
    | mk k v ps ds =>
        rw [bumpVersion]
        rw [taskVersion] at hv
        exact messageOf_bump_ne k v v' ps ds hv
  exact ⟨fun hc => gsv_subst_ne c (bumpVersion c v') hmsg s hinj hc,
         fun hc => substTask_of_not_contains c (bumpVersion c v') s hc⟩

def stream305 : Task :=
  Task.mk (r"Streams") (r"1.0")
    [((r"date"), (r"datetime.date(2018, 3, 5)"), true)] TaskList.nil

def stream306 : Task :=
  Task.mk (r"Streams") (r"1.0")
    [((r"date"), (r"datetime.date(2018, 3, 6)"), true)] TaskList.nil

def stream307 : Task :=
  Task.mk (r"Streams") (r"1.0")
    [((r"date"), (r"datetime.date(2018, 3, 7)"), true)] TaskList.nil

def stream308 : Task :=
  Task.mk (r"Streams") (r"1.0")
    [((r"date"), (r"datetime.date(2018, 3, 8)"), true)] TaskList.nil

def stream309 : Task :=
  Task.mk (r"Streams") (r"1.0")
    [((r"date"), (r"datetime.date(2018, 3, 9)"), true)] TaskList.nil

def stream310 : Task :=
  Task.mk (r"Streams") (r"1.0")
    [((r"date"), (r"datetime.date(2018, 3, 10)"), true)] TaskList.nil

def stream311 : Task :=
  Task.mk (r"Streams") (r"1.0")
    [((r"date"), (r"datetime.date(2018, 3, 11)"), true)] TaskList.nil

/-- The spec's example aggregate over the week 2018-03-05 .. 2018-03-11, with
one `Streams` task per day. -/
def aggWeek : Task :=
  Task.mk (r"AggregateArtists") (r"1.2 - bugfix")
    [((r"date_interval"), (r"2018-W10"), true)]
    (TaskList.cons stream305 (TaskList.cons stream306 (TaskList.cons stream307
      (TaskList.cons stream308 (TaskList.cons stream309 (TaskList.cons stream310
        (TaskList.cons stream311 TaskList.nil)))))))

/-- Witness for claim C3, on the spec's example scenario: bumping the
Wednesday `Streams` task to version 1.1 changes that task's digest and the
aggregate's digest, while a sibling `Streams` task is untouched. -/
theorem claim_C3_witness :
    ((r"1.1") ≠ taskVersion stream307 ∧
     MsgInj (allMessages (substTask stream307 (bumpVersion stream307 (r"1.1")) aggWeek))
       (allMessages aggWeek) ∧
     containsTask aggWeek stream307 = true ∧
     get_salted_version (substTask stream307 (bumpVersion stream307 (r"1.1")) aggWeek)
       ≠ get_salted_version aggWeek) ∧
    (MsgInj (allMessages (substTask stream307 (bumpVersion stream307 (r"1.1")) stream307))
       (allMessages stream307) ∧
     get_salted_version (substTask stream307 (bumpVersion stream307 (r"1.1")) stream307)
       ≠ get_salted_version stream307) ∧
    (containsTask stream305 stream307 = false ∧
     MsgInj (allMessages (substTask stream307 (bumpVersion stream307 (r"1.1")) stream305))
       (allMessages stream305) ∧
     substTask stream307 (bumpVersion stream307 (r"1.1")) stream305 = stream305) := by
  have hv : (r"1.1") ≠ taskVersion stream307 := by decide
  have hinjA : MsgInj
      (allMessages (substTask stream307 (bumpVersion stream307 (r"1.1")) aggWeek))
      (allMessages aggWeek) := by
    unfold MsgInj
    decide
  have hinjS : MsgInj
      (allMessages (substTask stream307 (bumpVersion stream307 (r"1.1")) stream307))
      (allMessages stream307) := by
    unfold MsgInj
    decide
  have hinjM : MsgInj
      (allMessages (substTask stream307 (bumpVersion stream307 (r"1.1")) stream305))
      (allMessages stream305) := by
    unfold MsgInj
    decide
  have hcA : containsTask aggWeek stream307 = true := by decide
  have hcS : containsTask stream307 stream307 = true := by decide
  have hnc : containsTask stream305 stream307 = false := by decide
  exact ⟨⟨hv, hinjA, hcA,
          (claim_C3 stream307 (r"1.1") aggWeek hv hinjA).1 hcA⟩,
         ⟨hinjS, (claim_C3 stream307 (r"1.1") stream307 hv hinjS).1 hcS⟩,
         ⟨hnc, hinjM,
          (claim_C3 stream307 (r"1.1") stream305 hv hinjM).2 hnc⟩⟩

def c5x : Task :=
  Task.mk (r"Streams") (r"1.0")
    [((r"date"), (r"datetime.date(2018, 3, 1)"), true)] TaskList.nil

def c5y : Task :=
  Task.mk (r"Streams") (r"1.0")
    [((r"date"), (r"datetime.date(2018, 3, 2)"), true)] TaskList.nil

def c5dep : Task := Task.mk (r"D") (r"1.0") [] TaskList.nil

def c5colB : Task :=
  Task.mk (r"K") (r"1.0") [] (TaskList.cons c5dep TaskList.nil)

/-- A dependency-free task whose kind is the digest of `c5dep` followed by
`K`: its pre-hash message coincides with that of `c5colB`, so the two tasks
have identical fingerprints while being different tasks. -/
def c5colA : Task :=
  Task.mk (get_salted_version c5dep ++ (r"K")) (r"1.0") [] TaskList.nil

/-- Counterexample to claim C5 as stated: a task whose two dependencies have
identical fingerprint strings (the tasks themselves being different), where
swapping the dependencies leaves the digest unchanged, contrary to the
claim's assertion that the digest changes even when the individual
fingerprints are identical strings differing only in position. -/
theorem claim_C5_counterexample :
    c5colA ≠ c5colB ∧
    get_salted_version c5colA = get_salted_version c5colB ∧
    get_salted_version (Task.mk (r"T") (r"1.0") []
        (TaskList.cons c5colB (TaskList.cons c5colA TaskList.nil)))
      = get_salted_version (Task.mk (r"T") (r"1.0") []
        (TaskList.cons c5colA (TaskList.cons c5colB TaskList.nil))) := by
  refine ⟨by decide, by decide, by decide⟩

/-- Claim C5, amended: for a task with dependencies `[A, B]`, swapping them to
`[B, A]` changes the pre-hash message exactly when the fingerprints of `A`
and `B` differ (so the digest changes up to SHA-256 collisions, verified on a
concrete instance below); when the fingerprints of `A` and `B` are identical
strings the swap leaves the digest unchanged. -/
theorem claim_C5 :
    (∀ (k v : String) (ps : List (String × String × Bool)) (A B : Task),
      get_salted_version A ≠ get_salted_version B →
      messageOf (Task.mk k v ps (TaskList.cons B (TaskList.cons A TaskList.nil))) ≠
        messageOf (Task.mk k v ps (TaskList.cons A (TaskList.cons B TaskList.nil))))
    ∧ (∀ (k v : String) (ps : List (String × String × Bool)) (A B : Task),
      get_salted_version A = get_salted_version B →
      get_salted_version
          (Task.mk k v ps (TaskList.cons B (TaskList.cons A TaskList.nil))) =
        get_salted_version
          (Task.mk k v ps (TaskList.cons A (TaskList.cons B TaskList.nil))))
    ∧ get_salted_version (Task.mk (r"AggregateArtists") (r"1.2 - bugfix") []
          (TaskList.cons c5y (TaskList.cons c5x TaskList.nil)))
        ≠ get_salted_version (Task.mk (r"AggregateArtists") (r"1.2 - bugfix") []
          (TaskList.cons c5x (TaskList.cons c5y TaskList.nil))) := by
  refine ⟨?_, ?_, by decide⟩
  · intro k v ps A B hAB
    exact messageOf_swap_ne k v ps A B hAB
  · intro k v ps A B hEq
    rw [gsv_as_hash, gsv_as_hash]
    have hm : messageOf (Task.mk k v ps (TaskList.cons B (TaskList.cons A TaskList.nil)))
        = messageOf (Task.mk k v ps (TaskList.cons A (TaskList.cons B TaskList.nil))) := by
      rw [messageOf, messageOf]
      simp only [saltMsg]
      rw [hEq]
    rw [hm]

/-- Witness for the amended claim C5: dependencies with distinct fingerprints
whose swap changes the pre-hash message, and the collision pair whose swap
does not change the digest. -/
theorem claim_C5_witness :
    (get_salted_version c5x ≠ get_salted_version c5y ∧
     messageOf (Task.mk (r"Agg") (r"1.0") []
         (TaskList.cons c5y (TaskList.cons c5x TaskList.nil)))
       ≠ messageOf (Task.mk (r"Agg") (r"1.0") []
         (TaskList.cons c5x (TaskList.cons c5y TaskList.nil)))) ∧
    (get_salted_version c5colA = get_salted_version c5colB ∧
     get_salted_version (Task.mk (r"Agg") (r"1.0") []
         (TaskList.cons c5colB (TaskList.cons c5colA TaskList.nil)))
       = get_salted_version (Task.mk (r"Agg") (r"1.0") []
         (TaskList.cons c5colA (TaskList.cons c5colB TaskList.nil)))) := by
  have h1 : get_salted_version c5x ≠ get_salted_version c5y := by decide
  have h2 : get_salted_version c5colA = get_salted_version c5colB := by decide
  exact ⟨⟨h1, claim_C5.1 (r"Agg") (r"1.0") [] c5x c5y h1⟩,
         ⟨h2, claim_C5.2.1 (r"Agg") (r"1.0") [] c5colA c5colB h2⟩⟩

/-- Claim C6: the flattener imposes a deterministic order, sorting by key, on
a keyed dependency collection: any two keyed collections holding equal
key-to-dependency bindings (a permutation of one another, keys distinct)
flatten to the same sequence, independently of insertion order. -/
theorem claim_C6 (ks1 ks2 : KeyedDeps)
    (hperm : (keyedToList ks1).Perm (keyedToList ks2))
    (hnd : ((keyedToList ks1).map Prod.fst).Nodup) :
    flattenDS (DepStruct.keyed ks1) = flattenDS (DepStruct.keyed ks2) := by
  rw [flattenDS, flattenDS]
  have hperm' : (flattenKD ks1).Perm (flattenKD ks2) := by
    rw [flattenKD_eq_map, flattenKD_eq_map]
    exact hperm.map _
  have hmapfst : (flattenKD ks1).map Prod.fst = (keyedToList ks1).map Prod.fst := by
    rw [flattenKD_eq_map, List.map_map]
    rfl
  have hnd1 : ((sortKeyed (flattenKD ks1)).map Prod.fst).Nodup := by
    apply (List.Perm.nodup_iff ((sortKeyed_perm (flattenKD ks1)).map Prod.fst)).mpr
    rw [hmapfst]
    exact hnd
  have hsorted : sortKeyed (flattenKD ks1) = sortKeyed (flattenKD ks2) := by
    apply sorted_perm_eq_of_nodup_keys
    · exact (sortKeyed_perm _).trans (hperm'.trans (sortKeyed_perm _).symm)
    · exact sortKeyed_pairwise _
    · exact sortKeyed_pairwise _
    · exact hnd1
  rw [hsorted]

def c6t1 : Task := Task.mk (r"Streams") (r"1.0") [] TaskList.nil

def c6t2 : Task := Task.mk (r"TrainDigits") (r"1.0") [] TaskList.nil

def c6k1 : KeyedDeps :=
  KeyedDeps.cons (r"b") (DepStruct.single c6t1)
    (KeyedDeps.cons (r"a") (DepStruct.single c6t2) KeyedDeps.nil)

def c6k2 : KeyedDeps :=
  KeyedDeps.cons (r"a") (DepStruct.single c6t2)
    (KeyedDeps.cons (r"b") (DepStruct.single c6t1) KeyedDeps.nil)

/-- Witness for claim C6: two keyed collections with the same bindings in
opposite insertion orders flatten identically. -/
theorem claim_C6_witness :
    ((keyedToList c6k1).Perm (keyedToList c6k2) ∧
     ((keyedToList c6k1).map Prod.fst).Nodup) ∧
    flattenDS (DepStruct.keyed c6k1) = flattenDS (DepStruct.keyed c6k2) := by
  have hperm : (keyedToList c6k1).Perm (keyedToList c6k2) :=
    List.Perm.swap _ _ _
  have hnd : ((keyedToList c6k1).map Prod.fst).Nodup := by decide
  exact ⟨⟨hperm, hnd⟩, claim_C6 c6k1 c6k2 hperm hnd⟩

/-- Claim C7: the target resolver computes `get_salted_version(task)`, takes
the six-character prefix of the digest, and substitutes it for the `salt`
placeholder alongside the caller-supplied template variables; the substituted
salt is exactly six characters long and is a prefix of the full digest.  The
resolver is a pure function in this embedding, returning a target value and
touching no storage. -/
theorem claim_C7 (t : Task) (pre mid post xv : String) (fmt : Option String)
    (kws : List (String × String)) :
    salted_target t [TemplatePiece.lit pre, TemplatePiece.hole (r"salt"),
        TemplatePiece.lit post] fmt kws
      = Option.some (LocalTarget.mk
          (pre ++ strTake 6 (get_salted_version t) ++ post) fmt) ∧
    salted_target t [TemplatePiece.hole (r"salt"), TemplatePiece.lit mid,
        TemplatePiece.hole (r"x")] fmt (((r"x"), xv) :: kws)
      = Option.some (LocalTarget.mk
          (strTake 6 (get_salted_version t) ++ mid ++ xv) fmt) ∧
    (strTake 6 (get_salted_version t)).length = 6 ∧
    strTake 6 (get_salted_version t) ++ strDrop 6 (get_salted_version t)
      = get_salted_version t := by
  refine ⟨?_, ?_, ?_, ?_⟩
  · show Option.some (LocalTarget.mk
        (pre ++ (strTake 6 (get_salted_version t) ++ (post ++ (r"")))) fmt) = _
    rw [strAppend_empty, ← strAppend_assoc]
  · show Option.some (LocalTarget.mk
        (strTake 6 (get_salted_version t) ++ (mid ++ (xv ++ (r"")))) fmt) = _
    rw [strAppend_empty, ← strAppend_assoc]
  · show ((get_salted_version t).data.take 6).length = 6
    rw [List.length_take]
    have h64 : (get_salted_version t).data.length = 64 := gsv_length t
    rw [h64]
    decide
  · apply strOfData
    rw [strData_append]
    show (get_salted_version t).data.take 6 ++ (get_salted_version t).data.drop 6
        = (get_salted_version t).data
    exact List.take_append_drop 6 _

def c10dep : Task := Task.mk (r"Q") (r"1.0") [] TaskList.nil

def c10b : Task :=
  Task.mk (r"R") (r"1.0") [] (TaskList.cons c10dep TaskList.nil)

def c10a : Task :=
  Task.mk (get_salted_version c10dep ++ (r"R")) (r"1.0") [] TaskList.nil

/-- Claim C10: the pre-hash encoding is not injective.  Because the
dependency-digest block is joined to the identity string with no delimiter
and the number of dependencies is not encoded, a task with one dependency of
digest `H` and kind `K` collides with a dependency-free task whose kind is
the 64-character string `H` concatenated with `K`: same codeVersion, same
(empty) significant parameters, equal messages, equal digests, different
tasks. -/
theorem claim_C10 :
    ∃ A B : Task,
      A ≠ B ∧
      taskDeps A = TaskList.nil ∧
      taskDeps B ≠ TaskList.nil ∧
      taskVersion A = taskVersion B ∧
      sigTokens (taskParams A) = sigTokens (taskParams B) ∧
      taskKind A = get_salted_version c10dep ++ taskKind B ∧
      (get_salted_version c10dep).length = 64 ∧
      messageOf A = messageOf B ∧
      get_salted_version A = get_salted_version B := by
  refine ⟨c10a, c10b, by decide, rfl, by decide, rfl, rfl, rfl,
    gsv_length c10dep, by decide, by decide⟩

end Salted
